import Mathlib

/-!
Shallow embedding of the equivalence-resolution core of `hashserver.py`, an
asynchronous hash equivalence server backed by a single sqlite table
`tasks_v2`.  The durable store is modelled as the list of table rows in
insertion (rowid) order; a JSON request body is modelled as an association
list from key to string value, so that a missing key can be observed exactly
where the Python code would raise `KeyError`.  Timestamps (`datetime.now()`)
are modelled as natural numbers supplied to each write call.
-/

/-- A row of the `tasks_v2` table (see `setup_database`, lines 108-127 of
`hashserver.py`).  `created` is the creation timestamp; the six optional
metadata columns are nullable. -/
structure TaskRecord where
  method : String
  outhash : String
  taskhash : String
  unihash : String
  created : Nat
  owner : Option String
  PN : Option String
  PV : Option String
  PR : Option String
  task : Option String
  outhash_siginfo : Option String
deriving DecidableEq

/-- The three-column projection returned by both handlers: the dictionary
with keys `taskhash`, `method`, `unihash`. -/
structure RecordProjection where
  taskhash : String
  method : String
  unihash : String
deriving DecidableEq

/-- A JSON object with string values, as an association list. -/
abbrev JsonObj := List (String × String)

/-- Lookup of `data[k]` as an optional value. -/
def getKey (d : JsonObj) (k : String) : Option String :=
  (d.find? (fun p => p.fst == k)).map Prod.snd

/-- Lookup of `data[k]` in a context where a missing key raises `KeyError`,
which aiohttp surfaces as a failed request. -/
def fetchKey (d : JsonObj) (k : String) : Except String String :=
  match getKey d k with
  | some v => Except.ok v
  | none => Except.error ("KeyError: " ++ k)

/-- The row selected by `ORDER BY created ASC LIMIT 1`: an earliest-created
row, taking the first row in table order when several tie. -/
def selectMinCreated : List TaskRecord → Option TaskRecord
  | [] => none
  | r :: rs =>
    match selectMinCreated rs with
    | none => some r
    | some b => if b.created < r.created then some b else some r

/-- Rows satisfying `method=:method AND taskhash=:taskhash` (the WHERE
clause of `get_equivalent`, line 25). -/
def lookupFilter (s : List TaskRecord) (method taskhash : String) : List TaskRecord :=
  s.filter fun r => r.method == method && r.taskhash == taskhash

/-- Rows satisfying `method=:method AND outhash=:outhash` (the WHERE clause
of the candidate query of `post_equivalent`, line 46). -/
def classFilter (s : List TaskRecord) (method outhash : String) : List TaskRecord :=
  s.filter fun r => r.method == method && r.outhash == outhash

/-- Rows of the `(method, outhash)` class whose `taskhash` also matches
exactly (sort key 1 in the candidate query, line 51). -/
def exactFilter (s : List TaskRecord) (method outhash taskhash : String) : List TaskRecord :=
  (classFilter s method outhash).filter fun r => r.taskhash == taskhash

/-- Handler `get_equivalent` (lines 17-34): select the earliest-created row
matching `method` and `taskhash` and return its three-column projection,
or `null` when no row matches. -/
def get_equivalent (s : List TaskRecord) (method taskhash : String) : Option RecordProjection :=
  (selectMinCreated (lookupFilter s method taskhash)).map fun r =>
    { taskhash := r.taskhash, method := r.method, unihash := r.unihash }

/-- The candidate query of `post_equivalent` (lines 43-56): among rows with
matching `method` and `outhash`, order by (exact taskhash match first, then
`created ASC`) and take one row; so an exact match wins when one exists,
otherwise the earliest-created row of the class. -/
def findCandidate (s : List TaskRecord) (method outhash taskhash : String) : Option TaskRecord :=
  match selectMinCreated (exactFilter s method outhash taskhash) with
  | some r => some r
  | none => selectMinCreated (classFilter s method outhash)

/-- The `insert_data` row built at lines 71-81: the four required columns,
the timestamp, and each of the six optional metadata keys copied from the
request body when present. -/
def mkInsert (method outhash taskhash unihash : String) (now : Nat) (data : JsonObj) :
    TaskRecord :=
  { method := method, outhash := outhash, taskhash := taskhash, unihash := unihash,
    created := now,
    owner := getKey data "owner", PN := getKey data "PN", PV := getKey data "PV",
    PR := getKey data "PR", task := getKey data "task",
    outhash_siginfo := getKey data "outhash_siginfo" }

/-- The sqlite `INSERT` (line 83), subject to the table constraint
`UNIQUE(method, outhash, taskhash)`: it fails with an IntegrityError when a
row with the same triple already exists, and otherwise appends the row. -/
def insertRecord (s : List TaskRecord) (r : TaskRecord) : Except String (List TaskRecord) :=
  if s.any fun x => x.method == r.method && x.outhash == r.outhash && x.taskhash == r.taskhash
  then Except.error "IntegrityError: UNIQUE constraint failed"
  else Except.ok (s ++ [r])

/-- Handler `post_equivalent` (lines 37-100).  The required keys `method`,
`outhash`, `taskhash` are read to build the candidate query (line 56); if
the candidate is missing or its taskhash differs, `data` must also carry
`unihash` (line 67, read before the candidate override on line 69), a new
row is inserted and its projection returned; on an exact match the existing
row's projection is returned and the store is untouched.  Errors model the
uncaught Python exceptions escaping the handler. -/
def post_equivalent (s : List TaskRecord) (data : JsonObj) (now : Nat) :
    Except String (List TaskRecord × RecordProjection) := do
  let method ← fetchKey data "method"
  let outhash ← fetchKey data "outhash"
  let taskhash ← fetchKey data "taskhash"
  match findCandidate s method outhash taskhash with
  | some row =>
    if row.taskhash == taskhash then
      pure (s, { taskhash := row.taskhash, method := row.method, unihash := row.unihash })
    else do
      let _caller ← fetchKey data "unihash"
      let s' ← insertRecord s (mkInsert method outhash taskhash row.unihash now data)
      pure (s', { taskhash := taskhash, method := method, unihash := row.unihash })
  | none => do
    let unihash ← fetchKey data "unihash"
    let s' ← insertRecord s (mkInsert method outhash taskhash unihash now data)
    pure (s', { taskhash := taskhash, method := method, unihash := unihash })

/-- One interleaved execution of `post_equivalent`: the records `between`
are committed by a concurrent writer at the await point separating the
candidate SELECT (line 43) from the INSERT (line 83), so the merge decision
is taken against `s` while the INSERT's uniqueness constraint is checked
against `s ++ between`.  The source has no try/except around the INSERT, so
a constraint violation escapes the handler. -/
def post_equivalent_raced (s between : List TaskRecord) (data : JsonObj) (now : Nat) :
    Except String (List TaskRecord × RecordProjection) := do
  let method ← fetchKey data "method"
  let outhash ← fetchKey data "outhash"
  let taskhash ← fetchKey data "taskhash"
  match findCandidate s method outhash taskhash with
  | some row =>
    if row.taskhash == taskhash then
      pure (s ++ between,
        { taskhash := row.taskhash, method := row.method, unihash := row.unihash })
    else do
      let _caller ← fetchKey data "unihash"
      let s' ← insertRecord (s ++ between) (mkInsert method outhash taskhash row.unihash now data)
      pure (s', { taskhash := taskhash, method := method, unihash := row.unihash })
  | none => do
    let unihash ← fetchKey data "unihash"
    let s' ← insertRecord (s ++ between) (mkInsert method outhash taskhash unihash now data)
    pure (s', { taskhash := taskhash, method := method, unihash := unihash })

/-- Store states reachable from the empty table by successful sequential
`post_equivalent` calls (each write call runs to completion before the
next starts). -/
inductive Reachable : List TaskRecord → Prop
  | empty : Reachable []
  | step {s s' : List TaskRecord} {data : JsonObj} {now : Nat} {p : RecordProjection} :
      Reachable s → post_equivalent s data now = Except.ok (s', p) → Reachable s'

/-- The table invariant `UNIQUE(method, outhash, taskhash)`: at most one row
per triple. -/
def UniqueTriples (s : List TaskRecord) : Prop :=
  ∀ m h t, (exactFilter s m h t).length ≤ 1

/-- A row carrying only the required columns, all metadata columns NULL;
convenient for concrete test stores. -/
def mkRec (method outhash taskhash unihash : String) (created : Nat) : TaskRecord :=
  ⟨method, outhash, taskhash, unihash, created, none, none, none, none, none, none⟩

example :
    post_equivalent [] [("method", "m"), ("outhash", "h"), ("taskhash", "t"), ("unihash", "u")] 0 =
      Except.ok ([mkRec "m" "h" "t" "u" 0], ⟨"t", "m", "u"⟩) := by rfl

example :
    get_equivalent [mkRec "m" "h" "t" "u" 0] "m" "t" = some ⟨"t", "m", "u"⟩ := by decide

theorem selectMinCreated_eq_none {l : List TaskRecord} :
    selectMinCreated l = none ↔ l = [] := by
  cases l with
  | nil => simp [selectMinCreated]
  | cons r rs =>
    cases h : selectMinCreated rs with
    | none => simp [selectMinCreated, h]
    | some b =>
      simp only [selectMinCreated, h]
      constructor
      · intro hc
        split at hc <;> simp at hc
      · intro hc
        simp at hc

theorem selectMinCreated_mem {l : List TaskRecord} {r : TaskRecord}
    (h : selectMinCreated l = some r) : r ∈ l := by
  induction l with
  | nil => simp [selectMinCreated] at h
  | cons a as ih =>
    cases hs : selectMinCreated as with
    | none =>
      simp only [selectMinCreated, hs] at h
      simp at h
      simp [h]
    | some b =>
      simp only [selectMinCreated, hs] at h
      by_cases hc : b.created < a.created
      · rw [if_pos hc] at h
        simp at h
        subst h
        exact List.mem_cons_of_mem _ (ih hs)
      · rw [if_neg hc] at h
        simp at h
        simp [h]

theorem selectMinCreated_min {l : List TaskRecord} :
    ∀ {r : TaskRecord}, selectMinCreated l = some r → ∀ x ∈ l, r.created ≤ x.created := by
  induction l with
  | nil => intro r h; simp [selectMinCreated] at h
  | cons a as ih =>
    intro r h
    cases hs : selectMinCreated as with
    | none =>
      simp only [selectMinCreated, hs] at h
      simp at h
      subst h
      intro x hx
      rcases List.mem_cons.mp hx with hx | hx
      · simp [hx]
      · exact absurd (selectMinCreated_eq_none.mp hs ▸ hx) (List.not_mem_nil x)
    | some b =>
      simp only [selectMinCreated, hs] at h
      by_cases hc : b.created < a.created
      · rw [if_pos hc] at h
        simp at h
        subst h
        intro x hx
        rcases List.mem_cons.mp hx with hx | hx
        · exact hx ▸ Nat.le_of_lt hc
        · exact ih hs x hx
      · rw [if_neg hc] at h
        simp at h
        subst h
        intro x hx
        rcases List.mem_cons.mp hx with hx | hx
        · simp [hx]
        · exact Nat.le_trans (Nat.le_of_not_lt hc) (ih hs x hx)

theorem selectMinCreated_map {l : List TaskRecord} {f : TaskRecord → TaskRecord}
    (hf : ∀ r, (f r).created = r.created) :
    selectMinCreated (l.map f) = (selectMinCreated l).map f := by
  induction l with
  | nil => simp [selectMinCreated]
  | cons a as ih =>
    simp only [List.map_cons, selectMinCreated, ih]
    cases hs : selectMinCreated as with
    | none => simp
    | some b => simp [hf, apply_ite (Option.map f)]

theorem mem_classFilter {s : List TaskRecord} {m h : String} {r : TaskRecord} :
    r ∈ classFilter s m h ↔ r ∈ s ∧ r.method = m ∧ r.outhash = h := by
  simp [classFilter, List.mem_filter, and_assoc]

theorem mem_exactFilter {s : List TaskRecord} {m h t : String} {r : TaskRecord} :
    r ∈ exactFilter s m h t ↔ r ∈ s ∧ r.method = m ∧ r.outhash = h ∧ r.taskhash = t := by
  simp [exactFilter, mem_classFilter, List.mem_filter, and_assoc]

theorem mem_lookupFilter {s : List TaskRecord} {m t : String} {r : TaskRecord} :
    r ∈ lookupFilter s m t ↔ r ∈ s ∧ r.method = m ∧ r.taskhash = t := by
  simp [lookupFilter, List.mem_filter, and_assoc]

theorem findCandidate_mem {s : List TaskRecord} {m h t : String} {r : TaskRecord}
    (hc : findCandidate s m h t = some r) : r ∈ s ∧ r.method = m ∧ r.outhash = h := by
  unfold findCandidate at hc
  cases he : selectMinCreated (exactFilter s m h t) with
  | some e =>
    rw [he] at hc
    simp at hc
    subst hc
    have := mem_exactFilter.mp (selectMinCreated_mem he)
    exact ⟨this.1, this.2.1, this.2.2.1⟩
  | none =>
    rw [he] at hc
    exact mem_classFilter.mp (selectMinCreated_mem hc)

theorem findCandidate_eq_none {s : List TaskRecord} {m h t : String} :
    findCandidate s m h t = none ↔ classFilter s m h = [] := by
  unfold findCandidate
  cases he : selectMinCreated (exactFilter s m h t) with
  | some e =>
    simp only []
    constructor
    · intro hc
      simp at hc
    · intro hc
      have : exactFilter s m h t = [] := by simp [exactFilter, hc]
      rw [this] at he
      simp [selectMinCreated] at he
  | none =>
    simp only []
    exact selectMinCreated_eq_none

theorem exactFilter_eq_nil_of_insert_branch {s : List TaskRecord} {m h t : String}
    (hc : findCandidate s m h t = none ∨
      ∃ r, findCandidate s m h t = some r ∧ ¬ r.taskhash = t) :
    exactFilter s m h t = [] := by
  by_contra hne
  have ⟨e, he⟩ : ∃ e, selectMinCreated (exactFilter s m h t) = some e := by
    cases hs : selectMinCreated (exactFilter s m h t) with
    | none => exact absurd (selectMinCreated_eq_none.mp hs) hne
    | some e => exact ⟨e, rfl⟩
  have hfc : findCandidate s m h t = some e := by
    unfold findCandidate
    rw [he]
  have het : e.taskhash = t := (mem_exactFilter.mp (selectMinCreated_mem he)).2.2.2
  rcases hc with hc | ⟨r, hr, hrt⟩
  · rw [hfc] at hc
    exact Option.noConfusion hc
  · rw [hfc] at hr
    exact hrt ((Option.some.injEq _ _ ▸ hr : e = r) ▸ het)

theorem fetchKey_bind {d : JsonObj} {k : String} {β : Type}
    (f : String → Except String β) :
    (fetchKey d k >>= f) =
      match getKey d k with
      | some v => f v
      | none => Except.error ("KeyError: " ++ k) := by
  unfold fetchKey
  cases getKey d k <;> rfl

theorem insertRecord_bind {s : List TaskRecord} {r : TaskRecord} {β : Type}
    (f : List TaskRecord → Except String β) :
    (insertRecord s r >>= f) =
      if s.any fun x =>
          x.method == r.method && x.outhash == r.outhash && x.taskhash == r.taskhash
      then Except.error "IntegrityError: UNIQUE constraint failed"
      else f (s ++ [r]) := by
  unfold insertRecord
  split <;> rfl

theorem pure_eq_ok {β : Type} (x : β) : (pure x : Except String β) = Except.ok x := rfl

/-- Exhaustive case analysis of a successful `post_equivalent` call: the three
required keys were present, and the call either hit an exact-match candidate
(store untouched), inherited the candidate's unihash into a fresh row, or
created a fresh row with the caller-supplied unihash. -/
theorem post_ok_cases {s s' : List TaskRecord} {data : JsonObj} {now : Nat}
    {p : RecordProjection}
    (hp : post_equivalent s data now = Except.ok (s', p)) :
    ∃ m h t, getKey data "method" = some m ∧ getKey data "outhash" = some h ∧
      getKey data "taskhash" = some t ∧
      ((∃ r, findCandidate s m h t = some r ∧ r.taskhash = t ∧ s' = s ∧
          p = ⟨r.taskhash, r.method, r.unihash⟩) ∨
       (∃ u r, getKey data "unihash" = some u ∧ findCandidate s m h t = some r ∧
          ¬ r.taskhash = t ∧ s' = s ++ [mkInsert m h t r.unihash now data] ∧
          p = ⟨t, m, r.unihash⟩) ∨
       (∃ u, getKey data "unihash" = some u ∧ findCandidate s m h t = none ∧
          s' = s ++ [mkInsert m h t u now data] ∧ p = ⟨t, m, u⟩)) := by
  unfold post_equivalent at hp
  rw [fetchKey_bind] at hp
  cases hm : getKey data "method" with
  | none => rw [hm] at hp; exact Except.noConfusion hp
  | some m =>
  rw [hm] at hp
  simp only [] at hp
  rw [fetchKey_bind] at hp
  cases ho : getKey data "outhash" with
  | none => rw [ho] at hp; exact Except.noConfusion hp
  | some h =>
  rw [ho] at hp
  simp only [] at hp
  rw [fetchKey_bind] at hp
  cases ht : getKey data "taskhash" with
  | none => rw [ht] at hp; exact Except.noConfusion hp
  | some t =>
  rw [ht] at hp
  simp only [] at hp
  refine ⟨m, h, t, rfl, rfl, rfl, ?_⟩
  cases hfc : findCandidate s m h t with
  | some row =>
    rw [hfc] at hp
    simp only [] at hp
    by_cases hrt : row.taskhash == t
    · rw [if_pos hrt] at hp
      rw [pure_eq_ok] at hp
      simp only [Except.ok.injEq, Prod.mk.injEq] at hp
      exact Or.inl ⟨row, rfl, beq_iff_eq.mp hrt, hp.1.symm, hp.2.symm⟩
    · rw [if_neg hrt] at hp
      rw [fetchKey_bind] at hp
      cases hu : getKey data "unihash" with
      | none => rw [hu] at hp; exact Except.noConfusion hp
      | some u =>
        rw [hu] at hp
        simp only [] at hp
        rw [insertRecord_bind] at hp
        split at hp
        · exact Except.noConfusion hp
        · rw [pure_eq_ok] at hp
          simp only [Except.ok.injEq, Prod.mk.injEq] at hp
          exact Or.inr (Or.inl ⟨u, row, rfl, rfl, fun he => hrt (beq_iff_eq.mpr he),
            hp.1.symm, hp.2.symm⟩)
  | none =>
    rw [hfc] at hp
    simp only [] at hp
    rw [fetchKey_bind] at hp
    cases hu : getKey data "unihash" with
    | none => rw [hu] at hp; exact Except.noConfusion hp
    | some u =>
      rw [hu] at hp
      simp only [] at hp
      rw [insertRecord_bind] at hp
      split at hp
      · exact Except.noConfusion hp
      · rw [pure_eq_ok] at hp
        simp only [Except.ok.injEq, Prod.mk.injEq] at hp
        exact Or.inr (Or.inr ⟨u, rfl, rfl, hp.1.symm, hp.2.symm⟩)

theorem any_triple_eq_false {s : List TaskRecord} {m h t : String}
    (hnil : exactFilter s m h t = []) :
    (s.any fun x => x.method == m && x.outhash == h && x.taskhash == t) = false := by
  cases hb : s.any fun x => x.method == m && x.outhash == h && x.taskhash == t with
  | false => rfl
  | true =>
    exfalso
    rcases List.any_eq_true.mp hb with ⟨x, hx, hpx⟩
    simp only [Bool.and_eq_true, beq_iff_eq] at hpx
    exact List.not_mem_nil x
      (hnil ▸ mem_exactFilter.mpr ⟨hx, hpx.1.1, hpx.1.2, hpx.2⟩)

/-- Evaluation of `post_equivalent` in Case C (exact re-observation). -/
theorem post_eval_caseC {s : List TaskRecord} {data : JsonObj} {now : Nat}
    {m h t : String} {row : TaskRecord}
    (hm : getKey data "method" = some m) (ho : getKey data "outhash" = some h)
    (ht : getKey data "taskhash" = some t)
    (hfc : findCandidate s m h t = some row) (hrt : row.taskhash = t) :
    post_equivalent s data now =
      Except.ok (s, ⟨row.taskhash, row.method, row.unihash⟩) := by
  unfold post_equivalent
  rw [fetchKey_bind, hm]
  simp only []
  rw [fetchKey_bind, ho]
  simp only []
  rw [fetchKey_bind, ht]
  simp only []
  rw [hfc]
  simp only []
  rw [if_pos (beq_iff_eq.mpr hrt)]
  rfl

/-- Evaluation of `post_equivalent` in Case B (candidate with a different
taskhash: the new row inherits the candidate's unihash). -/
theorem post_eval_caseB {s : List TaskRecord} {data : JsonObj} {now : Nat}
    {m h t u : String} {row : TaskRecord}
    (hm : getKey data "method" = some m) (ho : getKey data "outhash" = some h)
    (ht : getKey data "taskhash" = some t) (hu : getKey data "unihash" = some u)
    (hfc : findCandidate s m h t = some row) (hrt : ¬ row.taskhash = t) :
    post_equivalent s data now =
      Except.ok (s ++ [mkInsert m h t row.unihash now data], ⟨t, m, row.unihash⟩) := by
  have hnil := exactFilter_eq_nil_of_insert_branch (Or.inr ⟨row, hfc, hrt⟩)
  unfold post_equivalent
  rw [fetchKey_bind, hm]
  simp only []
  rw [fetchKey_bind, ho]
  simp only []
  rw [fetchKey_bind, ht]
  simp only []
  rw [hfc]
  simp only []
  rw [if_neg (fun hb => hrt (beq_iff_eq.mp hb))]
  rw [fetchKey_bind, hu]
  simp only []
  rw [insertRecord_bind]
  simp only [mkInsert]
  rw [any_triple_eq_false hnil]
  rfl

/-- Evaluation of `post_equivalent` in Case A (no candidate: the new row
carries the caller-supplied unihash). -/
theorem post_eval_caseA {s : List TaskRecord} {data : JsonObj} {now : Nat}
    {m h t u : String}
    (hm : getKey data "method" = some m) (ho : getKey data "outhash" = some h)
    (ht : getKey data "taskhash" = some t) (hu : getKey data "unihash" = some u)
    (hfc : findCandidate s m h t = none) :
    post_equivalent s data now =
      Except.ok (s ++ [mkInsert m h t u now data], ⟨t, m, u⟩) := by
  have hnil := exactFilter_eq_nil_of_insert_branch (Or.inl hfc)
  unfold post_equivalent
  rw [fetchKey_bind, hm]
  simp only []
  rw [fetchKey_bind, ho]
  simp only []
  rw [fetchKey_bind, ht]
  simp only []
  rw [hfc]
  simp only []
  rw [fetchKey_bind, hu]
  simp only []
  rw [insertRecord_bind]
  simp only [mkInsert]
  rw [any_triple_eq_false hnil]
  rfl

theorem selectMinCreated_of_ne_nil {l : List TaskRecord} (hne : l ≠ []) :
    ∃ r, selectMinCreated l = some r := by
  cases hs : selectMinCreated l with
  | none => exact absurd (selectMinCreated_eq_none.mp hs) hne
  | some r => exact ⟨r, rfl⟩

/-- C3: with a row exactly matching `(method, outhash, taskhash)` present,
`post_equivalent` is a read: the store is returned unchanged and the
existing row's projection is returned; the request's `unihash` entry (even
its presence) is never consulted. -/
theorem merge_caseC_idempotent_noop {s : List TaskRecord} {data : JsonObj} {now : Nat}
    {m h t : String}
    (hm : getKey data "method" = some m) (ho : getKey data "outhash" = some h)
    (ht : getKey data "taskhash" = some t)
    (hne : exactFilter s m h t ≠ []) :
    ∃ r, r ∈ s ∧ r.method = m ∧ r.outhash = h ∧ r.taskhash = t ∧
      post_equivalent s data now = Except.ok (s, ⟨r.taskhash, r.method, r.unihash⟩) := by
  rcases selectMinCreated_of_ne_nil hne with ⟨e, he⟩
  have hfc : findCandidate s m h t = some e := by
    unfold findCandidate
    rw [he]
  have hmem := mem_exactFilter.mp (selectMinCreated_mem he)
  exact ⟨e, hmem.1, hmem.2.1, hmem.2.2.1, hmem.2.2.2,
    post_eval_caseC hm ho ht hfc hmem.2.2.2⟩

/-- C3 witness: re-observing the already-stored triple returns the stored
unihash and leaves the store unchanged, with a fresh caller unihash in the
request. -/
theorem merge_caseC_idempotent_noop_witness :
    ∃ r, r ∈ [mkRec "m" "h" "t1" "u1" 0] ∧ r.method = "m" ∧ r.outhash = "h" ∧
      r.taskhash = "t1" ∧
      post_equivalent [mkRec "m" "h" "t1" "u1" 0]
        [("method", "m"), ("outhash", "h"), ("taskhash", "t1"), ("unihash", "u9")] 7 =
        Except.ok ([mkRec "m" "h" "t1" "u1" 0], ⟨r.taskhash, r.method, r.unihash⟩) :=
  merge_caseC_idempotent_noop (by rfl) (by rfl) (by rfl) (by decide)

/-- C2: with the `(method, outhash)` class inhabited but no exact taskhash
match, `post_equivalent` appends exactly one row carrying the candidate's
unihash (the earliest-created row of the class); the caller-supplied
unihash `u` is discarded. -/
theorem merge_caseB_inherits_unihash {s : List TaskRecord} {data : JsonObj} {now : Nat}
    {m h t u : String}
    (hm : getKey data "method" = some m) (ho : getKey data "outhash" = some h)
    (ht : getKey data "taskhash" = some t) (hu : getKey data "unihash" = some u)
    (hclass : classFilter s m h ≠ []) (hexact : exactFilter s m h t = []) :
    ∃ c, selectMinCreated (classFilter s m h) = some c ∧ c ∈ s ∧
      c.method = m ∧ c.outhash = h ∧
      post_equivalent s data now =
        Except.ok (s ++ [mkInsert m h t c.unihash now data], ⟨t, m, c.unihash⟩) := by
  rcases selectMinCreated_of_ne_nil hclass with ⟨c, hc⟩
  have hfc : findCandidate s m h t = some c := by
    unfold findCandidate
    rw [hexact]
    simpa [selectMinCreated] using hc
  have hmem := mem_classFilter.mp (selectMinCreated_mem hc)
  have hct : ¬ c.taskhash = t := by
    intro hct
    exact List.not_mem_nil c
      (hexact ▸ mem_exactFilter.mpr ⟨hmem.1, hmem.2.1, hmem.2.2, hct⟩)
  exact ⟨c, hc, hmem.1, hmem.2.1, hmem.2.2,
    post_eval_caseB hm ho ht hu hfc hct⟩

/-- C2 witness: after a first merge stored `(m, h, t1, u1)`, merging
`(m, h, t2, u2)` persists `(m, h, t2)` with unihash `u1`, not `u2`. -/
theorem merge_caseB_inherits_unihash_witness :
    ∃ c, selectMinCreated (classFilter [mkRec "m" "h" "t1" "u1" 0] "m" "h") = some c ∧
      c ∈ [mkRec "m" "h" "t1" "u1" 0] ∧ c.method = "m" ∧ c.outhash = "h" ∧
      post_equivalent [mkRec "m" "h" "t1" "u1" 0]
        [("method", "m"), ("outhash", "h"), ("taskhash", "t2"), ("unihash", "u2")] 1 =
        Except.ok ([mkRec "m" "h" "t1" "u1" 0] ++
          [mkInsert "m" "h" "t2" c.unihash 1
            [("method", "m"), ("outhash", "h"), ("taskhash", "t2"), ("unihash", "u2")]],
          ⟨"t2", "m", c.unihash⟩) :=
  merge_caseB_inherits_unihash (by rfl) (by rfl) (by rfl) (by rfl) (by decide) (by decide)

theorem lookupFilter_map_outhash {s : List TaskRecord} {m t : String}
    (g : TaskRecord → String) :
    lookupFilter (s.map fun r => { r with outhash := g r }) m t =
      (lookupFilter s m t).map fun r => { r with outhash := g r } := by
  unfold lookupFilter
  rw [List.filter_map]
  rfl

/-- C4: `get_equivalent` returns `null` exactly when no row has the given
method and taskhash; a returned projection comes from a matching row of
minimal `created`; and the result is invariant under arbitrarily rewriting
every row's `outhash`, so `outhash` plays no role in the selection. -/
theorem resolve_earliest_match (s : List TaskRecord) (m t : String) :
    (get_equivalent s m t = none ↔ ∀ r ∈ s, ¬(r.method = m ∧ r.taskhash = t)) ∧
    (∀ p, get_equivalent s m t = some p →
      ∃ r, r ∈ s ∧ r.method = m ∧ r.taskhash = t ∧
        (∀ x ∈ s, x.method = m → x.taskhash = t → r.created ≤ x.created) ∧
        p = ⟨r.taskhash, r.method, r.unihash⟩) ∧
    (∀ g : TaskRecord → String,
      get_equivalent (s.map fun r => { r with outhash := g r }) m t =
        get_equivalent s m t) := by
  have h1 : get_equivalent s m t = none ↔ lookupFilter s m t = [] := by
    unfold get_equivalent
    rw [Option.map_eq_none']
    exact selectMinCreated_eq_none
  refine ⟨?_, ?_, ?_⟩
  · rw [h1]
    constructor
    · intro hnil r hr hmt
      exact List.not_mem_nil r (hnil ▸ mem_lookupFilter.mpr ⟨hr, hmt.1, hmt.2⟩)
    · intro hall
      cases hl : lookupFilter s m t with
      | nil => rfl
      | cons a as =>
        exfalso
        have hmem := mem_lookupFilter.mp (hl ▸ List.mem_cons_self a as)
        exact hall a hmem.1 ⟨hmem.2.1, hmem.2.2⟩
  · intro p hp
    unfold get_equivalent at hp
    rw [Option.map_eq_some'] at hp
    rcases hp with ⟨r, hr, hpr⟩
    have hmem := mem_lookupFilter.mp (selectMinCreated_mem hr)
    exact ⟨r, hmem.1, hmem.2.1, hmem.2.2,
      fun x hx hxm hxt => selectMinCreated_min hr x (mem_lookupFilter.mpr ⟨hx, hxm, hxt⟩),
      hpr.symm⟩
  · intro g
    unfold get_equivalent
    rw [lookupFilter_map_outhash g,
      @selectMinCreated_map (lookupFilter s m t) (fun r => { r with outhash := g r })
        (fun r => rfl)]
    cases selectMinCreated (lookupFilter s m t) <;> rfl

/-- C4 witness: on a store where the same taskhash was observed under two
outhashes, the lookup result ignores outhash rewriting, and the earlier
record (created 3, unihash u2) wins. -/
theorem resolve_earliest_match_witness :
    (get_equivalent (List.map (fun r => { r with outhash := "X" })
        [mkRec "m" "h1" "t" "u1" 5, mkRec "m" "h2" "t" "u2" 3]) "m" "t" =
      get_equivalent [mkRec "m" "h1" "t" "u1" 5, mkRec "m" "h2" "t" "u2" 3] "m" "t") ∧
    get_equivalent [mkRec "m" "h1" "t" "u1" 5, mkRec "m" "h2" "t" "u2" 3] "m" "t" =
      some ⟨"t", "m", "u2"⟩ :=
  ⟨(resolve_earliest_match [mkRec "m" "h1" "t" "u1" 5, mkRec "m" "h2" "t" "u2" 3]
      "m" "t").2.2 (fun _ => "X"), by decide⟩

theorem mkInsert_method (m h t u : String) (now : Nat) (data : JsonObj) :
    (mkInsert m h t u now data).method = m := rfl

theorem mkInsert_outhash (m h t u : String) (now : Nat) (data : JsonObj) :
    (mkInsert m h t u now data).outhash = h := rfl

theorem mkInsert_taskhash (m h t u : String) (now : Nat) (data : JsonObj) :
    (mkInsert m h t u now data).taskhash = t := rfl

theorem mkInsert_unihash (m h t u : String) (now : Nat) (data : JsonObj) :
    (mkInsert m h t u now data).unihash = u := rfl

/-- Convergence: along sequential merges from the empty table, rows of one
`(method, outhash)` class always agree on `unihash`. -/
theorem reachable_converged {s : List TaskRecord} (hs : Reachable s) :
    ∀ r1 ∈ s, ∀ r2 ∈ s, r1.method = r2.method → r1.outhash = r2.outhash →
      r1.unihash = r2.unihash := by
  induction hs with
  | empty => simp
  | step hr hp ih =>
    rcases post_ok_cases hp with ⟨m, h, t, _, _, _, hcase⟩
    rcases hcase with ⟨r, _, _, hs', _⟩ | ⟨u, r, _, hfc, _, hs', _⟩ | ⟨u, _, hfc, hs', _⟩
    · exact hs' ▸ ih
    · subst hs'
      have hrmem := findCandidate_mem hfc
      intro r1 hr1 r2 hr2 hm ho
      rcases List.mem_append.mp hr1 with h1 | h1 <;>
        rcases List.mem_append.mp hr2 with h2 | h2
      · exact ih r1 h1 r2 h2 hm ho
      · rw [List.mem_singleton.mp h2, mkInsert_method] at hm
        rw [List.mem_singleton.mp h2, mkInsert_outhash] at ho
        rw [List.mem_singleton.mp h2, mkInsert_unihash]
        exact ih r1 h1 r hrmem.1 (hm.trans hrmem.2.1.symm) (ho.trans hrmem.2.2.symm)
      · rw [List.mem_singleton.mp h1, mkInsert_method] at hm
        rw [List.mem_singleton.mp h1, mkInsert_outhash] at ho
        rw [List.mem_singleton.mp h1, mkInsert_unihash]
        exact (ih r2 h2 r hrmem.1 (hm.symm.trans hrmem.2.1.symm)
          (ho.symm.trans hrmem.2.2.symm)).symm
      · rw [List.mem_singleton.mp h1, List.mem_singleton.mp h2]
    · subst hs'
      have hnil : classFilter _ m h = [] := findCandidate_eq_none.mp hfc
      intro r1 hr1 r2 hr2 hm ho
      rcases List.mem_append.mp hr1 with h1 | h1 <;>
        rcases List.mem_append.mp hr2 with h2 | h2
      · exact ih r1 h1 r2 h2 hm ho
      · rw [List.mem_singleton.mp h2, mkInsert_method] at hm
        rw [List.mem_singleton.mp h2, mkInsert_outhash] at ho
        have hin := mem_classFilter.mpr ⟨h1, hm, ho⟩
        rw [hnil] at hin
        exact absurd hin (List.not_mem_nil r1)
      · rw [List.mem_singleton.mp h1, mkInsert_method] at hm
        rw [List.mem_singleton.mp h1, mkInsert_outhash] at ho
        have hin := mem_classFilter.mpr ⟨h2, hm.symm, ho.symm⟩
        rw [hnil] at hin
        exact absurd hin (List.not_mem_nil r2)
      · rw [List.mem_singleton.mp h1, List.mem_singleton.mp h2]

/-- C1: on every store state reachable by sequential merges, all rows of a
`(method, outhash)` equivalence class share one unihash, and that shared
unihash is the one carried by the earliest-created row of the class (the
row the candidate query would select). -/
theorem merge_convergence_invariant {s : List TaskRecord} (hs : Reachable s) :
    (∀ r1 ∈ s, ∀ r2 ∈ s, r1.method = r2.method → r1.outhash = r2.outhash →
      r1.unihash = r2.unihash) ∧
    (∀ m h c, selectMinCreated (classFilter s m h) = some c →
      ∀ r ∈ s, r.method = m → r.outhash = h → r.unihash = c.unihash) := by
  refine ⟨reachable_converged hs, ?_⟩
  intro m h c hsel r hr hm ho
  have hc := mem_classFilter.mp (selectMinCreated_mem hsel)
  exact reachable_converged hs r hr c hc.1 (hm.trans hc.2.1.symm) (ho.trans hc.2.2.symm)

/-- C1 witness: after merging `(m, h, t1, u1)` and then `(m, h, t2, u2)`,
the two stored rows of the class carry the same unihash. -/
theorem merge_convergence_invariant_witness :
    (mkRec "m" "h" "t1" "u1" 0).unihash = (mkRec "m" "h" "t2" "u1" 1).unihash := by
  have h1 : post_equivalent []
      [("method", "m"), ("outhash", "h"), ("taskhash", "t1"), ("unihash", "u1")] 0 =
      Except.ok ([mkRec "m" "h" "t1" "u1" 0], ⟨"t1", "m", "u1"⟩) := by rfl
  have h2 : post_equivalent [mkRec "m" "h" "t1" "u1" 0]
      [("method", "m"), ("outhash", "h"), ("taskhash", "t2"), ("unihash", "u2")] 1 =
      Except.ok ([mkRec "m" "h" "t1" "u1" 0, mkRec "m" "h" "t2" "u1" 1],
        ⟨"t2", "m", "u1"⟩) := by rfl
  exact (merge_convergence_invariant
      (Reachable.step (Reachable.step Reachable.empty h1) h2)).1
    (mkRec "m" "h" "t1" "u1" 0) (by decide)
    (mkRec "m" "h" "t2" "u1" 1) (by decide) rfl rfl

theorem exactFilter_append {s1 s2 : List TaskRecord} {m h t : String} :
    exactFilter (s1 ++ s2) m h t = exactFilter s1 m h t ++ exactFilter s2 m h t := by
  simp [exactFilter, classFilter, List.filter_append]

/-- Every error escaping `post_equivalent` is a missing-key `KeyError`; in
particular the INSERT in the sequential path never trips the uniqueness
constraint, because an exact-match candidate diverts execution to the
no-insert branch. -/
theorem post_error_is_keyerror {s : List TaskRecord} {data : JsonObj} {now : Nat}
    {e : String} (he : post_equivalent s data now = Except.error e) :
    e = "KeyError: method" ∨ e = "KeyError: outhash" ∨ e = "KeyError: taskhash" ∨
      e = "KeyError: unihash" := by
  unfold post_equivalent at he
  rw [fetchKey_bind] at he
  cases hm : getKey data "method" with
  | none =>
    rw [hm] at he
    simp only [Except.error.injEq] at he
    exact Or.inl he.symm
  | some m =>
  rw [hm] at he
  simp only [] at he
  rw [fetchKey_bind] at he
  cases ho : getKey data "outhash" with
  | none =>
    rw [ho] at he
    simp only [Except.error.injEq] at he
    exact Or.inr (Or.inl he.symm)
  | some h =>
  rw [ho] at he
  simp only [] at he
  rw [fetchKey_bind] at he
  cases ht : getKey data "taskhash" with
  | none =>
    rw [ht] at he
    simp only [Except.error.injEq] at he
    exact Or.inr (Or.inr (Or.inl he.symm))
  | some t =>
  rw [ht] at he
  simp only [] at he
  cases hfc : findCandidate s m h t with
  | some row =>
    rw [hfc] at he
    simp only [] at he
    by_cases hrt : row.taskhash == t
    · rw [if_pos hrt, pure_eq_ok] at he
      exact Except.noConfusion he
    · rw [if_neg hrt, fetchKey_bind] at he
      cases hu : getKey data "unihash" with
      | none =>
        rw [hu] at he
        simp only [Except.error.injEq] at he
        exact Or.inr (Or.inr (Or.inr he.symm))
      | some u =>
        rw [hu] at he
        simp only [] at he
        rw [insertRecord_bind] at he
        simp only [mkInsert] at he
        rw [any_triple_eq_false (exactFilter_eq_nil_of_insert_branch
          (Or.inr ⟨row, hfc, fun heq => hrt (beq_iff_eq.mpr heq)⟩))] at he
        rw [pure_eq_ok] at he
        exact Except.noConfusion he
  | none =>
    rw [hfc] at he
    simp only [] at he
    rw [fetchKey_bind] at he
    cases hu : getKey data "unihash" with
    | none =>
      rw [hu] at he
      simp only [Except.error.injEq] at he
      exact Or.inr (Or.inr (Or.inr he.symm))
    | some u =>
      rw [hu] at he
      simp only [] at he
      rw [insertRecord_bind] at he
      simp only [mkInsert] at he
      rw [any_triple_eq_false (exactFilter_eq_nil_of_insert_branch (Or.inl hfc))] at he
      rw [pure_eq_ok] at he
      exact Except.noConfusion he

theorem uniqueTriples_preserved {s s' : List TaskRecord} {data : JsonObj} {now : Nat}
    {p : RecordProjection} (hu : UniqueTriples s)
    (hp : post_equivalent s data now = Except.ok (s', p)) : UniqueTriples s' := by
  rcases post_ok_cases hp with ⟨m, h, t, _, _, _, hcase⟩
  have hins : ∀ u', exactFilter s m h t = [] →
      UniqueTriples (s ++ [mkInsert m h t u' now data]) := by
    intro u' hnil m' h' t'
    rw [exactFilter_append]
    by_cases hmatch : m' = m ∧ h' = h ∧ t' = t
    · rcases hmatch with ⟨hm', hh', ht'⟩
      subst hm'
      subst hh'
      subst ht'
      rw [hnil, List.nil_append]
      simp only [exactFilter, classFilter]
      exact le_trans (List.length_filter_le _ _)
        (le_trans (List.length_filter_le _ _) (by simp))
    · have hnone : exactFilter [mkInsert m h t u' now data] m' h' t' = [] := by
        cases hx : exactFilter [mkInsert m h t u' now data] m' h' t' with
        | nil => rfl
        | cons a as =>
          exfalso
          have hmem := mem_exactFilter.mp (hx ▸ List.mem_cons_self a as)
          have ha : a = mkInsert m h t u' now data := List.mem_singleton.mp hmem.1
          exact hmatch ⟨by rw [← hmem.2.1, ha, mkInsert_method],
            by rw [← hmem.2.2.1, ha, mkInsert_outhash],
            by rw [← hmem.2.2.2, ha, mkInsert_taskhash]⟩
      rw [hnone, List.append_nil]
      exact hu m' h' t'
  rcases hcase with ⟨r, _, _, hs', _⟩ | ⟨u, r, _, hfc, hrt, hs', _⟩ | ⟨u, _, hfc, hs', _⟩
  · exact hs' ▸ hu
  · exact hs' ▸ hins r.unihash
      (exactFilter_eq_nil_of_insert_branch (Or.inr ⟨r, hfc, hrt⟩))
  · exact hs' ▸ hins u (exactFilter_eq_nil_of_insert_branch (Or.inl hfc))

theorem reachable_uniqueTriples {s : List TaskRecord} (hs : Reachable s) :
    UniqueTriples s := by
  induction hs with
  | empty => intro m h t; simp [exactFilter, classFilter]
  | step hr hp ih => exact uniqueTriples_preserved ih hp

/-- C7: every reachable store holds at most one row per
`(method, outhash, taskhash)`; a successful sequential merge preserves
this; and a merge never surfaces the uniqueness-constraint IntegrityError,
because an exact-match candidate diverts execution to the no-insert
branch. -/
theorem uniqueness_invariant {s : List TaskRecord} (hs : Reachable s) :
    UniqueTriples s ∧
    (∀ data now s' p, post_equivalent s data now = Except.ok (s', p) →
      UniqueTriples s') ∧
    (∀ data now, post_equivalent s data now ≠
      Except.error "IntegrityError: UNIQUE constraint failed") := by
  refine ⟨reachable_uniqueTriples hs, ?_, ?_⟩
  · intro data now s' p hp
    exact uniqueTriples_preserved (reachable_uniqueTriples hs) hp
  · intro data now hcontra
    rcases post_error_is_keyerror hcontra with he | he | he | he <;>
      exact absurd he (by decide)

/-- C7 witness: re-merging the stored triple (with a different caller
unihash) does not raise the uniqueness IntegrityError. -/
theorem uniqueness_invariant_witness :
    post_equivalent [mkRec "m" "h" "t" "u" 0]
      [("method", "m"), ("outhash", "h"), ("taskhash", "t"), ("unihash", "u2")] 1 ≠
      Except.error "IntegrityError: UNIQUE constraint failed" := by
  have h1 : post_equivalent []
      [("method", "m"), ("outhash", "h"), ("taskhash", "t"), ("unihash", "u")] 0 =
      Except.ok ([mkRec "m" "h" "t" "u" 0], ⟨"t", "m", "u"⟩) := by rfl
  exact (uniqueness_invariant (Reachable.step Reachable.empty h1)).2.2
    [("method", "m"), ("outhash", "h"), ("taskhash", "t"), ("unihash", "u2")] 1

/-- C9: a successful merge either leaves the store exactly as it was or
appends a single new row at the end; pre-existing rows are never updated,
reordered or deleted.  (`get_equivalent` is a pure read of the store by
construction.) -/
theorem merge_append_only {s s' : List TaskRecord} {data : JsonObj} {now : Nat}
    {p : RecordProjection}
    (hp : post_equivalent s data now = Except.ok (s', p)) :
    s' = s ∨ ∃ r, s' = s ++ [r] := by
  rcases post_ok_cases hp with ⟨m, h, t, _, _, _, hcase⟩
  rcases hcase with ⟨r, _, _, hs', _⟩ | ⟨u, r, _, _, _, hs', _⟩ | ⟨u, _, _, hs', _⟩
  · exact Or.inl hs'
  · exact Or.inr ⟨_, hs'⟩
  · exact Or.inr ⟨_, hs'⟩

/-- C9 witness: an exact re-observation leaves the one-row store unchanged
(left disjunct). -/
theorem merge_append_only_witness :
    [mkRec "m" "h" "t" "u" 0] = [mkRec "m" "h" "t" "u" 0] ∨
      ∃ r, [mkRec "m" "h" "t" "u" 0] = [mkRec "m" "h" "t" "u" 0] ++ [r] :=
  @merge_append_only [mkRec "m" "h" "t" "u" 0] [mkRec "m" "h" "t" "u" 0]
    [("method", "m"), ("outhash", "h"), ("taskhash", "t"), ("unihash", "u9")]
    4 ⟨"t", "m", "u"⟩ (by rfl)

/-- C5: code behaviour at the failing interleaving.  A concurrent writer
commits the identical triple between the candidate SELECT and the INSERT;
the INSERT then trips `UNIQUE(method, outhash, taskhash)` and, with no
try/except in `post_equivalent`, the IntegrityError escapes to the caller
instead of being recovered by a re-read. -/
theorem raced_duplicate_insert_errors :
    post_equivalent_raced [] [mkRec "m" "h" "t" "u2" 0]
      [("method", "m"), ("outhash", "h"), ("taskhash", "t"), ("unihash", "u1")] 1 =
      Except.error "IntegrityError: UNIQUE constraint failed" := by rfl

/-- C6 counterexample: a write request missing the required field `unihash`
is not rejected at all when an exact-match row exists; it succeeds and
returns the stored row, and the candidate query has of course run. -/
theorem validation_missing_unihash_not_rejected :
    getKey [("method", "m"), ("outhash", "h"), ("taskhash", "t")] "unihash" = none ∧
    post_equivalent [mkRec "m" "h" "t" "u0" 0]
      [("method", "m"), ("outhash", "h"), ("taskhash", "t")] 5 =
      Except.ok ([mkRec "m" "h" "t" "u0" 0], ⟨"t", "m", "u0"⟩) :=
  ⟨rfl, rfl⟩

theorem post_eval_missing_unihash {s : List TaskRecord} {data : JsonObj} {now : Nat}
    {m h t : String}
    (hm : getKey data "method" = some m) (ho : getKey data "outhash" = some h)
    (ht : getKey data "taskhash" = some t) (hu : getKey data "unihash" = none)
    (hnil : exactFilter s m h t = []) :
    post_equivalent s data now = Except.error "KeyError: unihash" := by
  unfold post_equivalent
  rw [fetchKey_bind, hm]
  simp only []
  rw [fetchKey_bind, ho]
  simp only []
  rw [fetchKey_bind, ht]
  simp only []
  cases hfc : findCandidate s m h t with
  | none =>
    simp only []
    rw [fetchKey_bind, hu]
    rfl
  | some row =>
    have hrt : ¬ row.taskhash = t := by
      intro heq
      have hmem := findCandidate_mem hfc
      exact List.not_mem_nil row
        (hnil ▸ mem_exactFilter.mpr ⟨hmem.1, hmem.2.1, hmem.2.2, heq⟩)
    simp only []
    rw [if_neg (fun hb => hrt (beq_iff_eq.mp hb))]
    rw [fetchKey_bind, hu]
    rfl

/-- C6 amended: a request missing `method`, `outhash` or `taskhash` fails
with a KeyError raised while the query parameters are built, before the
candidate query; a request missing only `unihash` fails (after the
candidate query, before any insert) exactly when no exact-match row
exists, and succeeds without touching the store when one does.  In every
failing case the store is not modified. -/
theorem validation_keyerror_behavior (s : List TaskRecord) (data : JsonObj) (now : Nat) :
    ((getKey data "method" = none ∨ getKey data "outhash" = none ∨
        getKey data "taskhash" = none) →
      ∃ e, post_equivalent s data now = Except.error e) ∧
    (∀ m h t, getKey data "method" = some m → getKey data "outhash" = some h →
      getKey data "taskhash" = some t → getKey data "unihash" = none →
      ((exactFilter s m h t = [] →
          post_equivalent s data now = Except.error "KeyError: unihash") ∧
       (exactFilter s m h t ≠ [] →
          ∃ p, post_equivalent s data now = Except.ok (s, p)))) := by
  constructor
  · intro hmiss
    cases hpost : post_equivalent s data now with
    | error e => exact ⟨e, rfl⟩
    | ok v =>
      obtain ⟨s', p⟩ := v
      rcases post_ok_cases hpost with ⟨m, h, t, hm, ho, ht, _⟩
      rcases hmiss with hx | hx | hx
      · rw [hx] at hm
        exact Option.noConfusion hm
      · rw [hx] at ho
        exact Option.noConfusion ho
      · rw [hx] at ht
        exact Option.noConfusion ht
  · intro m h t hm ho ht hu
    constructor
    · intro hnil
      exact post_eval_missing_unihash hm ho ht hu hnil
    · intro hne
      rcases selectMinCreated_of_ne_nil hne with ⟨e, he⟩
      have hfc : findCandidate s m h t = some e := by
        unfold findCandidate
        rw [he]
      have hmem := mem_exactFilter.mp (selectMinCreated_mem he)
      exact ⟨⟨e.taskhash, e.method, e.unihash⟩,
        post_eval_caseC hm ho ht hfc hmem.2.2.2⟩

/-- C6 amended witness: a request whose body lacks `method` fails with an
error. -/
theorem validation_keyerror_behavior_witness :
    ∃ e, post_equivalent [] [("outhash", "h")] 0 = Except.error e :=
  (validation_keyerror_behavior [] [("outhash", "h")] 0).1 (Or.inl rfl)

/-- C8 counterexample: with a prior row `(m, h, t2, u0)` in the store,
`merge(m, h, t1, u1)` inherits `u0`, so the subsequent `resolve(m, t1)`
returns `u0`, not the caller-supplied `u1`. -/
theorem post_then_resolve_not_caller_unihash :
    post_equivalent [mkRec "m" "h" "t2" "u0" 0]
      [("method", "m"), ("outhash", "h"), ("taskhash", "t1"), ("unihash", "u1")] 1 =
      Except.ok ([mkRec "m" "h" "t2" "u0" 0, mkRec "m" "h" "t1" "u0" 1],
        ⟨"t1", "m", "u0"⟩) ∧
    get_equivalent [mkRec "m" "h" "t2" "u0" 0, mkRec "m" "h" "t1" "u0" 1] "m" "t1" =
      some ⟨"t1", "m", "u0"⟩ ∧
    (⟨"t1", "m", "u0"⟩ : RecordProjection) ≠ ⟨"t1", "m", "u1"⟩ :=
  ⟨rfl, rfl, by decide⟩

/-- C8 amended: when the store holds no row with method `m` and outhash `h`
and none with method `m` and taskhash `t1`, `merge(m, h, t1, u1)` runs Case
A and the subsequent `resolve(m, t1)` returns `u1`. -/
theorem post_then_resolve_fresh {s : List TaskRecord} {data : JsonObj} {now : Nat}
    {m h t1 u1 : String}
    (hm : getKey data "method" = some m) (ho : getKey data "outhash" = some h)
    (ht : getKey data "taskhash" = some t1) (hu : getKey data "unihash" = some u1)
    (hclass : classFilter s m h = []) (hlook : lookupFilter s m t1 = []) :
    ∃ s', post_equivalent s data now = Except.ok (s', ⟨t1, m, u1⟩) ∧
      get_equivalent s' m t1 = some ⟨t1, m, u1⟩ := by
  have hfc : findCandidate s m h t1 = none := findCandidate_eq_none.mpr hclass
  refine ⟨s ++ [mkInsert m h t1 u1 now data], post_eval_caseA hm ho ht hu hfc, ?_⟩
  unfold get_equivalent
  have hlf : lookupFilter (s ++ [mkInsert m h t1 u1 now data]) m t1 =
      [mkInsert m h t1 u1 now data] := by
    unfold lookupFilter at hlook ⊢
    rw [List.filter_append, hlook, List.nil_append]
    simp [mkInsert]
  rw [hlf]
  simp [selectMinCreated, mkInsert]

/-- C8 amended witness: from the empty store, merging `(m, h, t1, u1)` and
resolving `(m, t1)` yields `u1`. -/
theorem post_then_resolve_fresh_witness :
    ∃ s', post_equivalent []
        [("method", "m"), ("outhash", "h"), ("taskhash", "t1"), ("unihash", "u1")] 0 =
        Except.ok (s', ⟨"t1", "m", "u1"⟩) ∧
      get_equivalent s' "m" "t1" = some ⟨"t1", "m", "u1"⟩ :=
  post_then_resolve_fresh rfl rfl rfl rfl rfl rfl

/-- C10: whenever a merge appends a row, the row's six optional metadata
columns are exactly the values of the keys `owner`, `PN`, `PV`, `PR`,
`task`, `outhash_siginfo` in the request body (absent keys stored as NULL);
and the whole outcome of a merge depends on the request body only through
those six keys and the four required ones, so any other key is ignored and
never persisted. -/
theorem metadata_whitelist :
    (∀ (s s' : List TaskRecord) (data : JsonObj) (now : Nat) (p : RecordProjection)
      (r : TaskRecord),
      post_equivalent s data now = Except.ok (s', p) → s' = s ++ [r] →
      r.owner = getKey data "owner" ∧ r.PN = getKey data "PN" ∧
      r.PV = getKey data "PV" ∧ r.PR = getKey data "PR" ∧
      r.task = getKey data "task" ∧
      r.outhash_siginfo = getKey data "outhash_siginfo") ∧
    (∀ (s : List TaskRecord) (data1 data2 : JsonObj) (now : Nat),
      (∀ k ∈ (["method", "outhash", "taskhash", "unihash", "owner", "PN", "PV",
        "PR", "task", "outhash_siginfo"] : List String),
        getKey data1 k = getKey data2 k) →
      post_equivalent s data1 now = post_equivalent s data2 now) := by
  constructor
  · intro s s' data now p r hp hr
    rcases post_ok_cases hp with ⟨m, h, t, _, _, _, hcase⟩
    rcases hcase with ⟨c, _, _, hs', _⟩ | ⟨u, c, _, _, _, hs', _⟩ | ⟨u, _, _, hs', _⟩
    · rw [hs'] at hr
      exact absurd hr.symm (by simp)
    · rw [hs'] at hr
      have : r = mkInsert m h t c.unihash now data := by
        have := List.append_cancel_left hr
        simpa using this.symm
      subst this
      exact ⟨rfl, rfl, rfl, rfl, rfl, rfl⟩
    · rw [hs'] at hr
      have : r = mkInsert m h t u now data := by
        have := List.append_cancel_left hr
        simpa using this.symm
      subst this
      exact ⟨rfl, rfl, rfl, rfl, rfl, rfl⟩
  · intro s data1 data2 now hagree
    have hm := hagree "method" (by simp)
    have ho := hagree "outhash" (by simp)
    have ht := hagree "taskhash" (by simp)
    have hu := hagree "unihash" (by simp)
    have h5 := hagree "owner" (by simp)
    have h6 := hagree "PN" (by simp)
    have h7 := hagree "PV" (by simp)
    have h8 := hagree "PR" (by simp)
    have h9 := hagree "task" (by simp)
    have h10 := hagree "outhash_siginfo" (by simp)
    have hfm : fetchKey data1 "method" = fetchKey data2 "method" := by
      unfold fetchKey
      rw [hm]
    have hfo : fetchKey data1 "outhash" = fetchKey data2 "outhash" := by
      unfold fetchKey
      rw [ho]
    have hft : fetchKey data1 "taskhash" = fetchKey data2 "taskhash" := by
      unfold fetchKey
      rw [ht]
    have hfu : fetchKey data1 "unihash" = fetchKey data2 "unihash" := by
      unfold fetchKey
      rw [hu]
    have hmk : ∀ a b c d e, mkInsert a b c d e data1 = mkInsert a b c d e data2 := by
      intro a b c d e
      unfold mkInsert
      rw [h5, h6, h7, h8, h9, h10]
    simp only [post_equivalent, hfm, hfo, hft, hfu, hmk]

/-- C10 witness: two requests differing only in unlisted junk keys produce
identical outcomes. -/
theorem metadata_whitelist_witness :
    post_equivalent []
      [("method", "m"), ("outhash", "h"), ("taskhash", "t"), ("unihash", "u"),
        ("junk", "x")] 0 =
    post_equivalent []
      [("method", "m"), ("outhash", "h"), ("taskhash", "t"), ("unihash", "u"),
        ("other", "y")] 0 :=
  metadata_whitelist.2 [] _ _ 0 (by decide)
